import Mathlib

attribute [local semireducible] Rat.add Rat.sub Rat.mul Rat.inv

/-!
Verification of the lyrics alignment core (`align_lyrics.py`).

The audio transcription step (the Whisper call) and all file I/O are external
collaborators, out of scope per the specification; the development below embeds
the pure core: word cleaning, lyrics tokenization, the matching-block
correspondence, the gap interpolator, and the three output formatters.
Times are modelled as rationals; Python `round(x, 2)` is modelled as
round-half-to-even on `x*100`, and Python `int(x)` as truncation toward zero.
-/

/-- Characters matched by the regex class `[\w']` restricted to ASCII:
alphanumerics, underscore (ASCII 95) and apostrophe (ASCII 39). -/
def isTokenChar (c : Char) : Bool :=
  c.isAlphanum || c = Char.ofNat 95 || c = Char.ofNat 39

/-- Embedding of `clean_word`: lower-case, then drop every character not in
`[\w']`. -/
def clean_word (w : String) : String :=
  String.mk ((w.data.map Char.toLower).filter isTokenChar)

structure LyricsWord where
  original : String
  clean : String
  line : Nat
deriving DecidableEq

structure TranscribedWord where
  word : String
  clean : String
  start : ℚ
  end_ : ℚ
deriving DecidableEq

structure AlignedTiming where
  word : String
  start : ℚ
  end_ : ℚ
  estimated : Option Bool
  line : Nat
deriving DecidableEq

/-- Transcribed-word record as built in `align_lyrics` (lines 71-78): the clean
field is `clean_word` of the surface form. -/
def mkTranscribed (w : String) (s e : ℚ) : TranscribedWord :=
  { word := w, clean := clean_word w, start := s, end_ := e }

/-- Splitter for one lyrics line: maximal runs of `[\w']` characters, the
`re.finditer` in `get_lyrics_words` (line 31). The accumulator holds the
current run reversed. -/
def tokenizeAux : List Char → List Char → List String
  | [], acc => if acc = [] then [] else [String.mk acc.reverse]
  | c :: cs, acc =>
    if isTokenChar c then tokenizeAux cs (c :: acc)
    else if acc = [] then tokenizeAux cs []
    else String.mk acc.reverse :: tokenizeAux cs []

/-- Embedding of `get_lyrics_words`, taking the file's lines as input. -/
def get_lyrics_words (lines : List String) : List LyricsWord :=
  lines.enum.flatMap fun p =>
    (tokenizeAux p.2.data []).map fun tok =>
      { original := tok, clean := clean_word tok, line := p.1 }

/-- Round half to even, Python's `round` on exact values. -/
def rhe (q : ℚ) : ℤ :=
  if q - (⌊q⌋ : ℚ) < 1/2 then ⌊q⌋
  else if (1:ℚ)/2 < q - (⌊q⌋ : ℚ) then ⌊q⌋ + 1
  else if ⌊q⌋ % 2 = 0 then ⌊q⌋ else ⌊q⌋ + 1

/-- Python `round(q, 2)` on exact values. -/
def round2 (q : ℚ) : ℚ := (rhe (q * 100) : ℚ) / 100

/-- Python `int(q)`: truncation toward zero. -/
def pyInt (q : ℚ) : ℤ := if 0 ≤ q then ⌊q⌋ else ⌈q⌉

/-- Length of the common run of `a` and `b` starting at positions `i`, `j`,
staying below `ahi` and `bhi`; `fuel` is instantiated with at least `ahi - i`
so the run is never cut short. -/
def runLen (a b : List String) (ahi bhi : Nat) : Nat → Nat → Nat → Nat
  | 0, _, _ => 0
  | fuel + 1, i, j =>
    if i < ahi ∧ j < bhi ∧ (a[i]?).isSome ∧ a[i]? = b[j]? then
      runLen a b ahi bhi fuel (i + 1) (j + 1) + 1
    else 0

/-- All candidate starting pairs inside the window. -/
def candidates (alo ahi blo bhi : Nat) : List (Nat × Nat) :=
  (List.range' alo (ahi - alo)).flatMap fun i =>
    (List.range' blo (bhi - blo)).map fun j => (i, j)

/-- Modelled from the spec: the longest-common-contiguous-block search of the
alignment engine (spec section 4.3) — the matcher itself lives in the Python
standard library (`difflib.SequenceMatcher`), not in this repository. Among
all maximal runs inside the window it returns the one starting earliest in
`a`, then earliest in `b`; `(alo, blo, 0)` when no common run exists. -/
def findLongestMatch (a b : List String) (alo ahi blo bhi : Nat) :
    Nat × Nat × Nat :=
  (candidates alo ahi blo bhi).foldl
    (fun best c =>
      if best.2.2 < runLen a b ahi bhi (ahi - c.1) c.1 c.2 then
        (c.1, c.2, runLen a b ahi bhi (ahi - c.1) c.1 c.2)
      else best)
    (alo, blo, 0)

/-- Modelled from the spec: the recursive matching-block decomposition of the
alignment engine (spec section 4.3) — the recursion itself lives in
`difflib.SequenceMatcher.get_matching_blocks`, not in this repository. Emit
the longest block, then recurse on the prefix pair and the suffix pair. The
`fuel` argument makes the recursion structural; the top-level wrapper passes
enough fuel for the recursion never to be cut off. -/
def mbAux (a b : List String) : Nat → Nat → Nat → Nat → Nat →
    List (Nat × Nat × Nat)
  | 0, _, _, _, _ => []
  | fuel + 1, alo, ahi, blo, bhi =>
    let m := findLongestMatch a b alo ahi blo bhi
    if 0 < m.2.2 ∧ alo ≤ ahi ∧ blo ≤ bhi then
      mbAux a b fuel alo m.1 blo m.2.1 ++
        m :: mbAux a b fuel (m.1 + m.2.2) ahi (m.2.1 + m.2.2) bhi
    else []

/-- Matching blocks of two cleaned-token sequences. -/
def get_matching_blocks (a b : List String) : List (Nat × Nat × Nat) :=
  mbAux a b (a.length + b.length) 0 a.length 0 b.length

/-- The `lyrics_to_trans` pairs (lines 94-100): every block expanded to index
pairs, guarded by the bounds checks of line 99. -/
def corrPairs (a b : List String) : List (Nat × Nat) :=
  (get_matching_blocks a b).flatMap fun blk =>
    (List.range blk.2.2).filterMap fun r =>
      if blk.1 + r < a.length ∧ blk.2.1 + r < b.length then
        some (blk.1 + r, blk.2.1 + r)
      else none

/-- Python dict lookup over an insertion list, last insertion winning. -/
def dictFind (m : List (Nat × Nat)) (k : Nat) : Option Nat :=
  m.foldl (fun acc p => if p.1 = k then some p.2 else acc) none

/-- The correspondence map `lyrics_to_trans` as a partial function. -/
def lyricsToTrans (lw : List LyricsWord) (tw : List TranscribedWord) :
    Nat → Option Nat :=
  fun i => dictFind (corrPairs (lw.map (·.clean)) (tw.map (·.clean))) i

def dummyTW : TranscribedWord := { word := "", clean := "", start := 0, end_ := 0 }

def dummyLW : LyricsWord := { original := "", clean := "", line := 0 }

def dummyTiming : AlignedTiming :=
  { word := "", start := 0, end_ := 0, estimated := none, line := 0 }

/-- `transcribed[j]`; the index is always in range when it comes from the
correspondence map. -/
def transAt (tw : List TranscribedWord) (j : Nat) : TranscribedWord :=
  (tw[j]?).getD dummyTW

def lyricsAt (lw : List LyricsWord) (i : Nat) : LyricsWord :=
  (lw[i]?).getD dummyLW

/-- Backward scan of lines 116-123: end time of the nearest preceding mapped
lyrics index, `0` when none exists. -/
def prevTime (m : Nat → Option Nat) (tw : List TranscribedWord) (i : Nat) : ℚ :=
  (((List.range i).reverse).findSome? fun j =>
    (m j).map fun tj => (transAt tw tj).end_).getD 0

/-- Forward scan of lines 125-129: start time of the nearest following mapped
lyrics index below `len`, `none` when there is none. -/
def nextTime (m : Nat → Option Nat) (tw : List TranscribedWord)
    (i len : Nat) : Option ℚ :=
  (List.range' (i + 1) (len - (i + 1))).findSome? fun j =>
    (m j).map fun tj => (transAt tw tj).start

/-- The estimate of lines 131-135. -/
def estTime (m : Nat → Option Nat) (tw : List TranscribedWord)
    (i len : Nat) : ℚ :=
  match nextTime m tw i len with
  | some n => (prevTime m tw i + n) / 2
  | none => prevTime m tw i + 3/10

/-- The timing entry emitted for lyrics index `i` (lines 104-143). -/
def timingFor (lw : List LyricsWord) (tw : List TranscribedWord)
    (m : Nat → Option Nat) (i : Nat) : AlignedTiming :=
  match m i with
  | some j =>
    { word := (lyricsAt lw i).original
      start := round2 (transAt tw j).start
      end_ := round2 (transAt tw j).end_
      estimated := none
      line := (lyricsAt lw i).line }
  | none =>
    { word := (lyricsAt lw i).original
      start := round2 (estTime m tw i lw.length)
      end_ := round2 (estTime m tw i lw.length + 1/5)
      estimated := some true
      line := (lyricsAt lw i).line }

/-- The `result_timings` loop of lines 103-143. -/
def buildTimings (lw : List LyricsWord) (tw : List TranscribedWord) :
    List AlignedTiming :=
  (List.range lw.length).map (timingFor lw tw (lyricsToTrans lw tw))

/-- Line 145. -/
def matchedCount (lw : List LyricsWord) (tw : List TranscribedWord) : Nat :=
  ((List.range lw.length).filter fun i =>
    (lyricsToTrans lw tw i).isSome).length

/-- The match-rate diagnostic of line 146, `100*matched//len(lyrics_words)`:
Python integer division raises `ZeroDivisionError` when the denominator is
zero, so the computation is fallible. -/
def matchRate (matched total : Nat) : Except String Nat :=
  if total = 0 then
    Except.error "ZeroDivisionError: integer division or modulo by zero"
  else Except.ok (100 * matched / total)

/-- Embedding of `align_lyrics` after the transcription call: builds the
timings, then evaluates the match-rate diagnostic of line 146 before
returning; the run fails when the diagnostic raises. -/
def align_lyrics (lw : List LyricsWord) (tw : List TranscribedWord) :
    Except String (List AlignedTiming) :=
  match matchRate (matchedCount lw tw) lw.length with
  | Except.error e => Except.error e
  | Except.ok _ => Except.ok (buildTimings lw tw)

/-- The `time_val` computation of lines 232-234. -/
def simpleVal (useMs : Bool) (q : ℚ) : ℚ :=
  if useMs then ((pyInt (q * 1000) : ℤ) : ℚ) else q

/-- Python dict assignment `result[key] = v`: update in place when the key is
present, append otherwise. -/
def dictInsert (m : List (String × ℚ)) (k : String) (v : ℚ) :
    List (String × ℚ) :=
  if m.any fun p => p.1 == k then
    m.map fun p => if p.1 == k then (k, v) else p
  else m ++ [(k, v)]

/-- Python dict lookup for `word_count`, keys unique. -/
def countFind (m : List (String × Nat)) (k : String) : Option Nat :=
  (m.find? fun p => p.1 == k).map Prod.snd

/-- `word_count[clean] = v` on an existing key. -/
def countSet (m : List (String × Nat)) (k : String) (v : Nat) :
    List (String × Nat) :=
  m.map fun p => if p.1 == k then (k, v) else p

/-- One iteration of the simple-format loop (lines 219-235). -/
def simpleStep (useMs : Bool)
    (st : List (String × ℚ) × List (String × Nat)) (item : AlignedTiming) :
    List (String × ℚ) × List (String × Nat) :=
  let c := clean_word item.word
  if c = "" then st
  else
    match countFind st.2 c with
    | some n =>
      (dictInsert st.1 (c ++ "_" ++ toString (n + 1))
        (simpleVal useMs item.start), countSet st.2 c (n + 1))
    | none =>
      (dictInsert st.1 c (simpleVal useMs item.start), st.2 ++ [(c, 1)])

/-- The simple-format loop over the whole timing list. -/
def simpleAux (useMs : Bool) :
    List AlignedTiming → List (String × ℚ) × List (String × Nat) →
    List (String × ℚ) × List (String × Nat)
  | [], st => st
  | t :: rest, st => simpleAux useMs rest (simpleStep useMs st t)

/-- The simple branch of `format_output` (lines 216-236): the result dict as
an ordered key-value list. -/
def format_simple (useMs : Bool) (ts : List AlignedTiming) :
    List (String × ℚ) :=
  (simpleAux useMs ts ([], [])).1

/-- A flat-format output dict: optional fields model dict-key presence. -/
structure OutEntry where
  word : String
  start : ℚ
  end_ : ℚ
  estimated : Option Bool
  line : Option Nat
deriving DecidableEq

/-- The flat branch of `format_output` (lines 237-247): with milliseconds the
entries are rebuilt with only `word`, `start`, `end` (lines 239-246);
otherwise `word_timings` is returned unchanged, every field present. -/
def format_flat (useMs : Bool) (ts : List AlignedTiming) : List OutEntry :=
  if useMs then
    ts.map fun t =>
      { word := t.word, start := ((pyInt (t.start * 1000) : ℤ) : ℚ)
        end_ := ((pyInt (t.end_ * 1000) : ℤ) : ℚ)
        estimated := none, line := none }
  else
    ts.map fun t =>
      { word := t.word, start := t.start, end_ := t.end_
        estimated := t.estimated, line := some t.line }

structure WordEntry where
  font : String
  color : String
  time : ℚ
  text : String
deriving DecidableEq

/-- A reactive line record; `words` is the array that the source serializes
into the `text` JSON string (a representation detail per spec section 9). -/
structure ReactiveLine where
  words : List WordEntry
  isJson : Bool
  locked : Bool
  seconds : ℚ
  subtitle : Option String
deriving DecidableEq

/-- Python `str.upper()` on the character list, as used by the reactive
formatter; `String.toUpper` itself is defined by well-founded recursion on
byte positions, so the embedding maps over the character list directly. -/
def pyUpper (s : String) : String := String.mk (s.data.map Char.toUpper)

/-- The word array of lines 185-196, carrying the relative-time cursor. -/
def mkWords (font color : String) : ℚ → List AlignedTiming → List WordEntry
  | _, [] => []
  | prev, w :: ws =>
    { font := font, color := color, time := round2 (w.start - prev)
      text := pyUpper w.word } :: mkWords font color w.start ws

/-- The distinct line indices present in the timings, ascending — the
`sorted(lines.keys())` of line 176. -/
def sortedLines (ts : List AlignedTiming) : List Nat :=
  (List.range ((ts.map (·.line)).foldl max 0 + 1)).filter fun ln =>
    ts.any fun t => t.line == ln

/-- The words grouped under one line index, in input order (lines 168-173). -/
def lineGroup (ts : List AlignedTiming) (ln : Nat) : List AlignedTiming :=
  ts.filter fun t => t.line == ln

/-- One line record (lines 181-207); `none` on an empty group, mirroring the
`continue` of line 179. -/
def buildLine (font color : String) (subs : Option (List String)) (ln : Nat) :
    List AlignedTiming → Option ReactiveLine
  | [] => none
  | w :: ws =>
    some
      { words := mkWords font color w.start (w :: ws)
        isJson := true
        locked := true
        seconds := w.start
        subtitle :=
          match subs with
          | some l => if ln < l.length then some (pyUpper (l.getD ln "")) else none
          | none => none }

/-- Embedding of `format_reactive` (lines 165-211). -/
def format_reactive (ts : List AlignedTiming) (font color : String)
    (subs : Option (List String)) : List ReactiveLine :=
  (sortedLines ts).filterMap fun ln =>
    buildLine font color subs ln (lineGroup ts ln)

/-- Well-formedness of the transcription input per the spec data model
(section 3): nonnegative starts, `start <= end` per word, chronological
non-overlapping order. -/
def TransWF (tw : List TranscribedWord) : Prop :=
  (∀ t ∈ tw, 0 ≤ t.start) ∧ (∀ t ∈ tw, t.start ≤ t.end_) ∧
    tw.Pairwise fun x y => x.end_ ≤ y.start

instance (tw : List TranscribedWord) : Decidable (TransWF tw) := by
  unfold TransWF
  infer_instance

/-! Generic helper lemmas. -/

theorem foldl_inv {α β : Type} (P : β → Prop) (f : β → α → β) (l : List α) :
    ∀ (init : β), P init → (∀ s x, x ∈ l → P s → P (f s x)) →
      P (l.foldl f init) := by
  induction l with
  | nil => intro init h _; exact h
  | cons x rest ih =>
    intro init h hstep
    exact ih (f init x) (hstep init x (List.mem_cons_self x rest) h)
      (fun s y hy hP => hstep s y (List.mem_cons_of_mem x hy) hP)

theorem pairwise_mem_rel {α : Type} {R : α → α → Prop} :
    ∀ {l : List α}, l.Pairwise R → ∀ {x y : α}, x ∈ l → y ∈ l →
      x = y ∨ R x y ∨ R y x := by
  intro l hl
  induction hl with
  | nil => intro x y hx _; exact absurd hx (List.not_mem_nil x)
  | cons hhead _ ih =>
    intro x y hx hy
    rcases List.mem_cons.mp hx with rfl | hx'
    · rcases List.mem_cons.mp hy with rfl | hy'
      · exact Or.inl rfl
      · exact Or.inr (Or.inl (hhead y hy'))
    · rcases List.mem_cons.mp hy with rfl | hy'
      · exact Or.inr (Or.inr (hhead x hx'))
      · exact ih hx' hy'

/-! Matcher lemmas: every emitted block lies inside its window, blocks are
separated in both coordinates, hence the correspondence pairs are strictly
increasing in both coordinates. -/

theorem runLen_le (a b : List String) (ahi bhi : Nat) :
    ∀ fuel i j, runLen a b ahi bhi fuel i j ≤ ahi - i ∧
      runLen a b ahi bhi fuel i j ≤ bhi - j := by
  intro fuel
  induction fuel with
  | zero => intro i j; simp [runLen]
  | succ n ih =>
    intro i j
    simp only [runLen]
    split_ifs with h
    · obtain ⟨h1, h2, _⟩ := h
      have := ih (i + 1) (j + 1)
      omega
    · omega

theorem mem_candidates {alo ahi blo bhi : Nat} {c : Nat × Nat}
    (h : c ∈ candidates alo ahi blo bhi) :
    alo ≤ c.1 ∧ c.1 < ahi ∧ blo ≤ c.2 ∧ c.2 < bhi := by
  unfold candidates at h
  simp only [List.mem_flatMap, List.mem_map] at h
  obtain ⟨i, hi, j, hj, rfl⟩ := h
  rw [List.mem_range'_1] at hi hj
  exact ⟨hi.1, by omega, hj.1, by omega⟩

theorem flm_bounds (a b : List String) (alo ahi blo bhi : Nat)
    (hab : alo ≤ ahi) (hbb : blo ≤ bhi) :
    alo ≤ (findLongestMatch a b alo ahi blo bhi).1 ∧
      (findLongestMatch a b alo ahi blo bhi).1 +
        (findLongestMatch a b alo ahi blo bhi).2.2 ≤ ahi ∧
      blo ≤ (findLongestMatch a b alo ahi blo bhi).2.1 ∧
      (findLongestMatch a b alo ahi blo bhi).2.1 +
        (findLongestMatch a b alo ahi blo bhi).2.2 ≤ bhi := by
  unfold findLongestMatch
  apply foldl_inv
    (fun best : Nat × Nat × Nat =>
      alo ≤ best.1 ∧ best.1 + best.2.2 ≤ ahi ∧ blo ≤ best.2.1 ∧
        best.2.1 + best.2.2 ≤ bhi)
  · refine ⟨Nat.le_refl _, ?_, Nat.le_refl _, ?_⟩
    · show alo + 0 ≤ ahi
      omega
    · show blo + 0 ≤ bhi
      omega
  · intro s c hc hP
    have hcb := mem_candidates hc
    have hrl := runLen_le a b ahi bhi (ahi - c.1) c.1 c.2
    split_ifs with hlt
    · refine ⟨?_, ?_, ?_, ?_⟩
      · show alo ≤ c.1
        omega
      · show c.1 + runLen a b ahi bhi (ahi - c.1) c.1 c.2 ≤ ahi
        omega
      · show blo ≤ c.2
        omega
      · show c.2 + runLen a b ahi bhi (ahi - c.1) c.1 c.2 ≤ bhi
        omega
    · exact hP

/-- Separation of matching blocks: the first ends before the second starts,
in both coordinates. -/
def blkSep (x y : Nat × Nat × Nat) : Prop :=
  x.1 + x.2.2 ≤ y.1 ∧ x.2.1 + x.2.2 ≤ y.2.1

theorem mbAux_sound (a b : List String) :
    ∀ (fuel alo ahi blo bhi : Nat), alo ≤ ahi → blo ≤ bhi →
      (∀ blk ∈ mbAux a b fuel alo ahi blo bhi,
        alo ≤ blk.1 ∧ blk.1 + blk.2.2 ≤ ahi ∧ blo ≤ blk.2.1 ∧
          blk.2.1 + blk.2.2 ≤ bhi ∧ 0 < blk.2.2) ∧
      (mbAux a b fuel alo ahi blo bhi).Pairwise blkSep := by
  intro fuel
  induction fuel with
  | zero =>
    intro alo ahi blo bhi _ _
    simp [mbAux]
  | succ n ih =>
    intro alo ahi blo bhi hab hbb
    simp only [mbAux]
    split_ifs with hcond
    · obtain ⟨hk, _, _⟩ := hcond
      have hb := flm_bounds a b alo ahi blo bhi hab hbb
      obtain ⟨hb1, hb2, hb3, hb4⟩ := hb
      have ihL := ih alo (findLongestMatch a b alo ahi blo bhi).1 blo
        (findLongestMatch a b alo ahi blo bhi).2.1 hb1 hb3
      have ihR := ih ((findLongestMatch a b alo ahi blo bhi).1 +
          (findLongestMatch a b alo ahi blo bhi).2.2) ahi
        ((findLongestMatch a b alo ahi blo bhi).2.1 +
          (findLongestMatch a b alo ahi blo bhi).2.2) bhi hb2 hb4
      constructor
      · intro blk hblk
        rcases List.mem_append.mp hblk with hL | hMR
        · have := ihL.1 blk hL
          omega
        · rcases List.mem_cons.mp hMR with rfl | hR
          · exact ⟨hb1, hb2, hb3, hb4, hk⟩
          · have := ihR.1 blk hR
            omega
      · rw [List.pairwise_append]
        refine ⟨ihL.2, ?_, ?_⟩
        · rw [List.pairwise_cons]
          refine ⟨?_, ihR.2⟩
          intro y hy
          have := ihR.1 y hy
          exact ⟨by omega, by omega⟩
        · intro x hx y hy
          have hxb := ihL.1 x hx
          rcases List.mem_cons.mp hy with rfl | hyR
          · exact ⟨by omega, by omega⟩
          · have hyb := ihR.1 y hyR
            exact ⟨by omega, by omega⟩
    · simp

theorem mem_corrPairs {a b : List String} {p : Nat × Nat}
    (h : p ∈ corrPairs a b) :
    ∃ blk ∈ get_matching_blocks a b, ∃ r < blk.2.2,
      p = (blk.1 + r, blk.2.1 + r) ∧ p.1 < a.length ∧ p.2 < b.length := by
  unfold corrPairs at h
  simp only [List.mem_flatMap, List.mem_filterMap] at h
  obtain ⟨blk, hblk, r, hr, hsome⟩ := h
  split_ifs at hsome with hb
  obtain ⟨h1, h2⟩ := hb
  have hp := Option.some.inj hsome
  subst hp
  exact ⟨blk, hblk, r, List.mem_range.mp hr, rfl, h1, h2⟩

theorem corrPairs_mono {a b : List String} {p q : Nat × Nat}
    (hp : p ∈ corrPairs a b) (hq : q ∈ corrPairs a b) (hlt : p.1 < q.1) :
    p.2 < q.2 := by
  obtain ⟨bp, hbp, rp, hrp, hpe, _, _⟩ := mem_corrPairs hp
  obtain ⟨bq, hbq, rq, hrq, hqe, _, _⟩ := mem_corrPairs hq
  have hsound := mbAux_sound a b (a.length + b.length) 0 a.length 0 b.length
    (Nat.zero_le _) (Nat.zero_le _)
  unfold get_matching_blocks at hbp hbq
  have hrel := pairwise_mem_rel hsound.2 hbp hbq
  have hbpb := hsound.1 bp hbp
  have hbqb := hsound.1 bq hbq
  subst hpe hqe
  simp only at hlt ⊢
  rcases hrel with rfl | hsep | hsep
  · omega
  · obtain ⟨hs1, hs2⟩ := hsep
    omega
  · obtain ⟨hs1, hs2⟩ := hsep
    omega

theorem dictFind_go : ∀ (m : List (Nat × Nat)) (acc : Option Nat) (k v : Nat),
    m.foldl (fun acc p => if p.1 = k then some p.2 else acc) acc = some v →
    (k, v) ∈ m ∨ acc = some v := by
  intro m
  induction m with
  | nil => intro acc k v h; exact Or.inr h
  | cons p rest ih =>
    intro acc k v h
    rcases ih _ k v h with hm | hacc
    · exact Or.inl (List.mem_cons_of_mem _ hm)
    · have hacc2 : (if p.1 = k then some p.2 else acc) = some v := hacc
      by_cases hp : p.1 = k
      · rw [if_pos hp] at hacc2
        have hv := Option.some.inj hacc2
        left
        have hpe : p = (k, v) := by
          obtain ⟨p1, p2⟩ := p
          simp only at hp hv
          rw [hp, hv]
        rw [← hpe]
        exact List.mem_cons_self p rest
      · rw [if_neg hp] at hacc2
        exact Or.inr hacc2

theorem dictFind_mem {m : List (Nat × Nat)} {k v : Nat}
    (h : dictFind m k = some v) : (k, v) ∈ m := by
  rcases dictFind_go m none k v h with hm | hacc
  · exact hm
  · exact absurd hacc (by simp)

theorem lyricsToTrans_mem {lw : List LyricsWord} {tw : List TranscribedWord}
    {i j : Nat} (h : lyricsToTrans lw tw i = some j) :
    (i, j) ∈ corrPairs (lw.map (·.clean)) (tw.map (·.clean)) :=
  dictFind_mem h

theorem lyricsToTrans_lt {lw : List LyricsWord} {tw : List TranscribedWord}
    {i j : Nat} (h : lyricsToTrans lw tw i = some j) :
    i < lw.length ∧ j < tw.length := by
  have hm := mem_corrPairs (lyricsToTrans_mem h)
  obtain ⟨_, _, _, _, _, h1, h2⟩ := hm
  simp only [List.length_map] at h1 h2
  exact ⟨h1, h2⟩

theorem lyricsToTrans_mono {lw : List LyricsWord} {tw : List TranscribedWord}
    {i1 j1 i2 j2 : Nat} (h1 : lyricsToTrans lw tw i1 = some j1)
    (h2 : lyricsToTrans lw tw i2 = some j2) (hlt : i1 < i2) : j1 < j2 :=
  corrPairs_mono (lyricsToTrans_mem h1) (lyricsToTrans_mem h2) hlt

/-! Scan lemmas: the backward and forward scans of the interpolator find the
nearest mapped neighbour. -/

theorem findSome_rev_range {β : Type} (f : Nat → Option β) :
    ∀ (i : Nat) {v : β}, (List.range i).reverse.findSome? f = some v →
      ∃ x, x < i ∧ f x = some v ∧ ∀ y, x < y → y < i → f y = none := by
  intro i
  induction i with
  | zero => intro v h; simp at h
  | succ n ih =>
    intro v h
    rw [List.range_succ, List.reverse_append, List.reverse_cons,
      List.reverse_nil, List.nil_append, List.singleton_append,
      List.findSome?_cons] at h
    cases hfn : f n with
    | some b =>
      rw [hfn] at h
      refine ⟨n, Nat.lt_succ_self n, ?_, ?_⟩
      · rw [hfn]; exact h
      · intro y hy1 hy2
        exfalso
        omega
    | none =>
      rw [hfn] at h
      obtain ⟨x, hx1, hx2, hx3⟩ := ih h
      refine ⟨x, by omega, hx2, ?_⟩
      intro y hy1 hy2
      rcases Nat.lt_succ_iff_lt_or_eq.mp hy2 with hlt | rfl
      · exact hx3 y hy1 hlt
      · exact hfn

theorem findSome_range' {β : Type} (f : Nat → Option β) :
    ∀ (n s : Nat) {v : β}, (List.range' s n).findSome? f = some v →
      ∃ x, s ≤ x ∧ x < s + n ∧ f x = some v ∧
        ∀ y, s ≤ y → y < x → f y = none := by
  intro n
  induction n with
  | zero => intro s v h; simp at h
  | succ m ih =>
    intro s v h
    rw [List.range'_succ, List.findSome?_cons] at h
    cases hfs : f s with
    | some b =>
      rw [hfs] at h
      refine ⟨s, Nat.le_refl s, by omega, ?_, ?_⟩
      · rw [hfs]; exact h
      · intro y hy1 hy2
        exfalso
        omega
    | none =>
      rw [hfs] at h
      obtain ⟨x, hx1, hx2, hx3, hx4⟩ := ih (s + 1) h
      refine ⟨x, by omega, by omega, hx3, ?_⟩
      intro y hy1 hy2
      rcases Nat.eq_or_lt_of_le hy1 with rfl | hgt
      · exact hfs
      · exact hx4 y hgt hy2

theorem prevTime_cases (m : Nat → Option Nat) (tw : List TranscribedWord)
    (i : Nat) :
    prevTime m tw i = 0 ∨
      ∃ j tj, j < i ∧ m j = some tj ∧
        prevTime m tw i = (transAt tw tj).end_ ∧
        ∀ y, j < y → y < i → m y = none := by
  unfold prevTime
  cases hfs : (List.range i).reverse.findSome? fun j =>
      (m j).map fun tj => (transAt tw tj).end_ with
  | none => left; rfl
  | some v =>
    right
    obtain ⟨x, hx1, hx2, hx3⟩ := findSome_rev_range _ i hfs
    cases hmx : m x with
    | none => rw [hmx] at hx2; simp at hx2
    | some tj =>
      rw [hmx] at hx2
      simp only [Option.map_some'] at hx2
      refine ⟨x, tj, hx1, hmx, ?_, ?_⟩
      · simp [Option.some.inj hx2]
      · intro y hy1 hy2
        have := hx3 y hy1 hy2
        simpa using this

theorem prevTime_eq_zero {m : Nat → Option Nat} {tw : List TranscribedWord}
    {i : Nat} (h : ∀ j, j < i → m j = none) : prevTime m tw i = 0 := by
  unfold prevTime
  have hn : ((List.range i).reverse.findSome? fun j =>
      (m j).map fun tj => (transAt tw tj).end_) = none := by
    rw [List.findSome?_eq_none_iff]
    intro x hx
    rw [List.mem_reverse, List.mem_range] at hx
    rw [h x hx]
    rfl
  rw [hn]
  rfl

theorem nextTime_cases (m : Nat → Option Nat) (tw : List TranscribedWord)
    (i len : Nat) :
    nextTime m tw i len = none ∨
      ∃ j tj, i < j ∧ j < len ∧ m j = some tj ∧
        nextTime m tw i len = some (transAt tw tj).start ∧
        ∀ y, i < y → y < j → m y = none := by
  unfold nextTime
  cases hfs : (List.range' (i + 1) (len - (i + 1))).findSome? fun j =>
      (m j).map fun tj => (transAt tw tj).start with
  | none => left; rfl
  | some v =>
    right
    obtain ⟨x, hx1, hx2, hx3, hx4⟩ := findSome_range' _ (len - (i + 1)) (i + 1) hfs
    cases hmx : m x with
    | none => rw [hmx] at hx3; simp at hx3
    | some tj =>
      rw [hmx] at hx3
      simp only [Option.map_some'] at hx3
      refine ⟨x, tj, by omega, by omega, hmx, ?_, ?_⟩
      · rw [Option.some.inj hx3]
      · intro y hy1 hy2
        have := hx4 y (by omega) hy2
        simpa using this

theorem nextTime_eq_none {m : Nat → Option Nat} {tw : List TranscribedWord}
    {i len : Nat} (h : ∀ j, i < j → j < len → m j = none) :
    nextTime m tw i len = none := by
  unfold nextTime
  rw [List.findSome?_eq_none_iff]
  intro x hx
  rw [List.mem_range'_1] at hx
  rw [h x (by omega) (by omega)]
  rfl

/-! Transcription well-formedness lemmas. -/

theorem transAt_eq_get {tw : List TranscribedWord} {j : Nat}
    (h : j < tw.length) : transAt tw j = tw.get ⟨j, h⟩ := by
  unfold transAt
  rw [List.getElem?_eq_getElem h]
  rfl

theorem transAt_mem {tw : List TranscribedWord} {j : Nat}
    (h : j < tw.length) : transAt tw j ∈ tw := by
  rw [transAt_eq_get h]
  exact List.get_mem tw j h

theorem transWF_sep {tw : List TranscribedWord} (hwf : TransWF tw)
    {t1 t2 : Nat} (h12 : t1 < t2) (h2 : t2 < tw.length) :
    (transAt tw t1).end_ ≤ (transAt tw t2).start := by
  have h1 : t1 < tw.length := Nat.lt_trans h12 h2
  rw [transAt_eq_get h1, transAt_eq_get h2]
  exact List.pairwise_iff_get.mp hwf.2.2 ⟨t1, h1⟩ ⟨t2, h2⟩ h12

/-! Rounding lemmas. -/

theorem rhe_le (q : ℚ) : ⌊q⌋ ≤ rhe q ∧ rhe q ≤ ⌊q⌋ + 1 := by
  unfold rhe
  split_ifs <;> omega

theorem rhe_mono {q r : ℚ} (h : q ≤ r) : rhe q ≤ rhe r := by
  rcases lt_or_eq_of_le (Int.floor_le_floor h) with hf | hf
  · have h1 := (rhe_le q).2
    have h2 := (rhe_le r).1
    omega
  · unfold rhe
    rw [← hf]
    split_ifs <;> first | omega | (exfalso; linarith)

theorem rhe_shift (x : ℚ) : rhe (x + 20) = rhe x + 20 := by
  unfold rhe
  have h1 : ⌊x + (20 : ℚ)⌋ = ⌊x⌋ + 20 := by exact_mod_cast Int.floor_add_int x 20
  rw [h1]
  have h2 : x + 20 - ((⌊x⌋ + 20 : ℤ) : ℚ) = x - (⌊x⌋ : ℚ) := by push_cast; ring
  rw [h2]
  have h3 : (⌊x⌋ + 20) % 2 = ⌊x⌋ % 2 := by omega
  rw [h3]
  split_ifs <;> omega

theorem round2_mono {q r : ℚ} (h : q ≤ r) : round2 q ≤ round2 r := by
  unfold round2
  have h1 : rhe (q * 100) ≤ rhe (r * 100) := rhe_mono (by linarith)
  have h2 : ((rhe (q * 100) : ℤ) : ℚ) ≤ ((rhe (r * 100) : ℤ) : ℚ) := by
    exact_mod_cast h1
  linarith

theorem round2_shift (q : ℚ) : round2 (q + 1/5) = round2 q + 1/5 := by
  unfold round2
  have h1 : (q + 1/5) * 100 = q * 100 + 20 := by ring
  rw [h1, rhe_shift]
  push_cast
  ring

theorem round2_zero : round2 0 = 0 := by decide

theorem pyInt_trunc {q : ℚ} (h : 0 ≤ q) :
    (pyInt q : ℚ) ≤ q ∧ q < (pyInt q : ℚ) + 1 := by
  unfold pyInt
  rw [if_pos h]
  exact ⟨Int.floor_le q, Int.lt_floor_add_one q⟩

/-! Timing-sequence lemmas. -/

theorem lyricsAt_eq_get {lw : List LyricsWord} {i : Nat} (h : i < lw.length) :
    lyricsAt lw i = lw.get ⟨i, h⟩ := by
  unfold lyricsAt
  rw [List.getElem?_eq_getElem h]
  rfl

theorem buildTimings_getElem? {lw : List LyricsWord}
    {tw : List TranscribedWord} {i : Nat} (h : i < lw.length) :
    (buildTimings lw tw)[i]? =
      some (timingFor lw tw (lyricsToTrans lw tw) i) := by
  unfold buildTimings
  rw [List.getElem?_map, List.getElem?_range h]
  rfl

theorem buildTimings_length (lw : List LyricsWord)
    (tw : List TranscribedWord) : (buildTimings lw tw).length = lw.length := by
  unfold buildTimings
  rw [List.length_map, List.length_range]

theorem mem_buildTimings {lw : List LyricsWord} {tw : List TranscribedWord}
    {e : AlignedTiming} (h : e ∈ buildTimings lw tw) :
    ∃ i, i < lw.length ∧ e = timingFor lw tw (lyricsToTrans lw tw) i := by
  unfold buildTimings at h
  simp only [List.mem_map, List.mem_range] at h
  obtain ⟨i, hi, rfl⟩ := h
  exact ⟨i, hi, rfl⟩

theorem timingFor_word (lw : List LyricsWord) (tw : List TranscribedWord)
    (m : Nat → Option Nat) (i : Nat) :
    (timingFor lw tw m i).word = (lyricsAt lw i).original := by
  unfold timingFor
  cases m i <;> rfl

theorem timingFor_line (lw : List LyricsWord) (tw : List TranscribedWord)
    (m : Nat → Option Nat) (i : Nat) :
    (timingFor lw tw m i).line = (lyricsAt lw i).line := by
  unfold timingFor
  cases m i <;> rfl

theorem timingFor_estimated (lw : List LyricsWord) (tw : List TranscribedWord)
    (m : Nat → Option Nat) (i : Nat) :
    (timingFor lw tw m i).estimated =
      match m i with
      | some _ => none
      | none => some true := by
  unfold timingFor
  cases m i <;> rfl

theorem prev_le_next {lw : List LyricsWord} {tw : List TranscribedWord}
    (hwf : TransWF tw) {i : Nat} {n : ℚ}
    (hnext : nextTime (lyricsToTrans lw tw) tw i lw.length = some n) :
    prevTime (lyricsToTrans lw tw) tw i ≤ n := by
  rcases nextTime_cases (lyricsToTrans lw tw) tw i lw.length with hz |
    ⟨jn, tn, hjn1, _, hmn, hne, _⟩
  · rw [hz] at hnext
    exact absurd hnext (by simp)
  · rw [hne] at hnext
    have hn := Option.some.inj hnext
    have htn := (lyricsToTrans_lt hmn).2
    rcases prevTime_cases (lyricsToTrans lw tw) tw i with hz | ⟨jp, tp, hjp, hmp, hpe, _⟩
    · rw [hz, ← hn]
      exact (hwf.1 _ (transAt_mem htn))
    · rw [hpe, ← hn]
      have htt : tp < tn := lyricsToTrans_mono hmp hmn (Nat.lt_trans hjp hjn1)
      exact transWF_sep hwf htt htn

theorem timingFor_start_le_end {lw : List LyricsWord}
    {tw : List TranscribedWord} (hwf : TransWF tw) (i : Nat) :
    (timingFor lw tw (lyricsToTrans lw tw) i).start ≤
      (timingFor lw tw (lyricsToTrans lw tw) i).end_ := by
  unfold timingFor
  cases hm : lyricsToTrans lw tw i with
  | some j =>
    have hj := (lyricsToTrans_lt hm).2
    have hmem := transAt_mem hj
    exact round2_mono (hwf.2.1 _ hmem)
  | none =>
    show round2 (estTime (lyricsToTrans lw tw) tw i lw.length) ≤
      round2 (estTime (lyricsToTrans lw tw) tw i lw.length + 1/5)
    rw [round2_shift]
    linarith

theorem timingFor_est_duration {lw : List LyricsWord}
    {tw : List TranscribedWord} {i : Nat}
    (hm : lyricsToTrans lw tw i = none) :
    (timingFor lw tw (lyricsToTrans lw tw) i).end_ -
      (timingFor lw tw (lyricsToTrans lw tw) i).start = 1/5 := by
  unfold timingFor
  rw [hm]
  show round2 (estTime (lyricsToTrans lw tw) tw i lw.length + 1/5) -
    round2 (estTime (lyricsToTrans lw tw) tw i lw.length) = 1/5
  rw [round2_shift]
  ring

/-! Simple-format lemmas: the `word_count` dict counts occurrences, keys of
the result dict stay distinct, and each nonempty-clean word is inserted under
the bare key on first occurrence and under a suffixed key afterwards. -/

/-- Number of entries of `ts` whose cleaned word is `c`. -/
def occCount (ts : List AlignedTiming) (c : String) : Nat :=
  (ts.filter fun t => clean_word t.word == c).length

theorem countFind_cons (p : String × Nat) (m : List (String × Nat))
    (c : String) :
    countFind (p :: m) c = if p.1 == c then some p.2 else countFind m c := by
  by_cases h : (p.1 == c) = true
  · simp [countFind, List.find?_cons, h]
  · have hf : (p.1 == c) = false := by
      rw [← Bool.not_eq_true]
      exact h
    simp [countFind, List.find?_cons, hf]

theorem countFind_append_single (m : List (String × Nat)) (k : String)
    (v : Nat) (c : String) :
    countFind (m ++ [(k, v)]) c =
      match countFind m c with
      | some w => some w
      | none => if k == c then some v else none := by
  induction m with
  | nil =>
    by_cases h : (k == c) = true <;>
      simp [countFind, countFind_cons, List.find?_cons, h]
  | cons p rest ih =>
    rw [List.cons_append, countFind_cons, countFind_cons]
    by_cases h : (p.1 == c) = true
    · simp [h]
    · have hf : (p.1 == c) = false := by
        rw [← Bool.not_eq_true]
        exact h
      simp [hf, ih]

theorem countFind_countSet (m : List (String × Nat)) (k : String) (v : Nat)
    (c : String) :
    countFind (countSet m k v) c =
      if k == c then (countFind m c).map fun _ => v else countFind m c := by
  induction m with
  | nil => by_cases h : k = c <;> simp [countSet, countFind, beq_iff_eq, h]
  | cons p rest ih =>
    have hcs : countSet (p :: rest) k v =
        (if p.1 == k then (k, v) else p) :: countSet rest k v := rfl
    rw [hcs]
    by_cases hpk : p.1 = k <;> by_cases hkc : k = c
    · subst hpk
      subst hkc
      simp [countFind_cons, ih]
    · subst hpk
      simp [countFind_cons, beq_iff_eq, hkc, ih]
    · subst hkc
      simp [countFind_cons, beq_iff_eq, hpk, ih]
    · by_cases hpc : p.1 = c
      · have hck : ¬c = k := fun h => hkc h.symm
        simp [countFind_cons, beq_iff_eq, hpk, hpc, hkc, hck, ih]
      · simp [countFind_cons, beq_iff_eq, hpk, hpc, hkc, ih]

theorem occCount_cons (t : AlignedTiming) (rest : List AlignedTiming)
    (c : String) :
    occCount (t :: rest) c =
      (if clean_word t.word == c then 1 else 0) + occCount rest c := by
  unfold occCount
  rw [List.filter_cons]
  by_cases h : (clean_word t.word == c) = true
  · simp [h, Nat.add_comm]
  · have hf : (clean_word t.word == c) = false := by
      rw [← Bool.not_eq_true]
      exact h
    simp [hf]

theorem simpleAux_counts (useMs : Bool) :
    ∀ (ts : List AlignedTiming)
      (st : List (String × ℚ) × List (String × Nat)) (c : String), c ≠ "" →
      countFind (simpleAux useMs ts st).2 c =
        match countFind st.2 c with
        | some n => some (n + occCount ts c)
        | none => if occCount ts c = 0 then none else some (occCount ts c) := by
  intro ts
  induction ts with
  | nil =>
    intro st c _
    cases h : countFind st.2 c <;> simp [simpleAux, occCount, h]
  | cons t rest ih =>
    intro st c hc
    show countFind (simpleAux useMs rest (simpleStep useMs st t)).2 c = _
    rw [ih _ c hc, occCount_cons]
    by_cases h0 : clean_word t.word = ""
    · have hne : (clean_word t.word == c) = false :=
        beq_eq_false_iff_ne.mpr (fun he => hc (he.symm.trans h0))
      have hstep : simpleStep useMs st t = st := by simp [simpleStep, h0]
      rw [hstep, hne]
      cases hf : countFind st.2 c <;> simp [hf]
    · by_cases hcc : clean_word t.word = c
      · subst hcc
        have hbt : (clean_word t.word == clean_word t.word) = true :=
          beq_self_eq_true _
        cases hfind : countFind st.2 (clean_word t.word) with
        | some n =>
          have h2 : (simpleStep useMs st t).2 =
              countSet st.2 (clean_word t.word) (n + 1) := by
            simp [simpleStep, h0, hfind]
          rw [h2, countFind_countSet, if_pos hbt, hfind]
          simp [hbt, Nat.add_assoc]
        | none =>
          have h2 : (simpleStep useMs st t).2 =
              st.2 ++ [(clean_word t.word, 1)] := by
            simp [simpleStep, h0, hfind]
          rw [h2, countFind_append_single, hfind]
          simp [hbt, hfind]
      · have hne : (clean_word t.word == c) = false :=
          beq_eq_false_iff_ne.mpr hcc
        have hkeep : countFind (simpleStep useMs st t).2 c =
            countFind st.2 c := by
          cases hfind : countFind st.2 (clean_word t.word) with
          | some n => simp [simpleStep, h0, hfind, countFind_countSet, hne]
          | none =>
            have h2 : (simpleStep useMs st t).2 =
                st.2 ++ [(clean_word t.word, 1)] := by
              simp [simpleStep, h0, hfind]
            rw [h2, countFind_append_single]
            cases hsc : countFind st.2 c <;> simp [hsc, hne]
        rw [hkeep, hne]
        cases hf : countFind st.2 c <;> simp [hf]

theorem simpleAux_append (useMs : Bool) :
    ∀ (l1 l2 : List AlignedTiming)
      (st : List (String × ℚ) × List (String × Nat)),
      simpleAux useMs (l1 ++ l2) st =
        simpleAux useMs l2 (simpleAux useMs l1 st) := by
  intro l1
  induction l1 with
  | nil => intro l2 st; rfl
  | cons t rest ih =>
    intro l2 st
    show simpleAux useMs (rest ++ l2) (simpleStep useMs st t) = _
    exact ih l2 (simpleStep useMs st t)

theorem dictInsert_keys (m : List (String × ℚ)) (k : String) (v : ℚ) :
    (dictInsert m k v).map Prod.fst =
      if m.any fun p => p.1 == k then m.map Prod.fst
      else m.map Prod.fst ++ [k] := by
  unfold dictInsert
  split_ifs with h
  · rw [List.map_map]
    apply List.map_congr_left
    intro p _
    show (if p.1 == k then (k, v) else p).1 = p.1
    by_cases hp : (p.1 == k) = true
    · rw [if_pos hp]
      exact (eq_of_beq hp).symm
    · rw [if_neg hp]
  · rw [List.map_append]
    rfl

theorem dictInsert_nodup {m : List (String × ℚ)} {k : String} {v : ℚ}
    (h : (m.map Prod.fst).Nodup) : ((dictInsert m k v).map Prod.fst).Nodup := by
  rw [dictInsert_keys]
  split_ifs with hany
  · exact h
  · have hk : k ∉ m.map Prod.fst := by
      intro hmem
      obtain ⟨p, hp, hpk⟩ := List.mem_map.mp hmem
      have hb : (p.1 == k) = true := by
        rw [hpk]
        exact beq_self_eq_true k
      have hh : (m.any fun p => p.1 == k) = true :=
        List.any_eq_true.mpr ⟨p, hp, hb⟩
      rw [Bool.not_eq_true] at hany
      rw [hany] at hh
      exact Bool.false_ne_true hh
    rw [List.nodup_append]
    refine ⟨h, List.nodup_singleton k, ?_⟩
    intro x hx hx2
    rw [List.mem_singleton] at hx2
    subst hx2
    exact hk hx

theorem simpleAux_nodup (useMs : Bool) :
    ∀ (ts : List AlignedTiming)
      (st : List (String × ℚ) × List (String × Nat)),
      (st.1.map Prod.fst).Nodup →
      (((simpleAux useMs ts st).1).map Prod.fst).Nodup := by
  intro ts
  induction ts with
  | nil => intro st h; exact h
  | cons t rest ih =>
    intro st h
    apply ih
    by_cases h0 : clean_word t.word = ""
    · have hstep : simpleStep useMs st t = st := by simp [simpleStep, h0]
      rw [hstep]
      exact h
    · cases hfind : countFind st.2 (clean_word t.word) with
      | some n =>
        have h1 : (simpleStep useMs st t).1 =
            dictInsert st.1 (clean_word t.word ++ "_" ++ toString (n + 1))
              (simpleVal useMs t.start) := by
          simp [simpleStep, h0, hfind]
        rw [h1]
        exact dictInsert_nodup h
      | none =>
        have h1 : (simpleStep useMs st t).1 =
            dictInsert st.1 (clean_word t.word) (simpleVal useMs t.start) := by
          simp [simpleStep, h0, hfind]
        rw [h1]
        exact dictInsert_nodup h

theorem dictInsert_length (m : List (String × ℚ)) (k : String) (v : ℚ) :
    (dictInsert m k v).length ≤ m.length + 1 := by
  unfold dictInsert
  split_ifs with h
  · rw [List.length_map]
    omega
  · rw [List.length_append]
    simp

theorem simpleAux_length (useMs : Bool) :
    ∀ (ts : List AlignedTiming)
      (st : List (String × ℚ) × List (String × Nat)),
      ((simpleAux useMs ts st).1).length ≤
        st.1.length + (ts.filter fun t => !(clean_word t.word == "")).length := by
  intro ts
  induction ts with
  | nil => intro st; simp [simpleAux]
  | cons t rest ih =>
    intro st
    show ((simpleAux useMs rest (simpleStep useMs st t)).1).length ≤ _
    rw [List.filter_cons]
    by_cases h0 : clean_word t.word = ""
    · have hb : (!(clean_word t.word == "")) = false := by
        rw [h0]
        rfl
      rw [hb]
      have hstep : simpleStep useMs st t = st := by simp [simpleStep, h0]
      rw [hstep]
      have := ih st
      simpa using this
    · have hb : (!(clean_word t.word == "")) = true := by
        have : (clean_word t.word == "") = false := beq_eq_false_iff_ne.mpr h0
        rw [this]
        rfl
      rw [hb, if_pos rfl, List.length_cons]
      have hlen : (simpleStep useMs st t).1.length ≤ st.1.length + 1 := by
        by_cases hq : clean_word t.word = ""
        · exact absurd hq h0
        · cases hfind : countFind st.2 (clean_word t.word) with
          | some n =>
            have h1 : (simpleStep useMs st t).1 =
                dictInsert st.1
                  (clean_word t.word ++ "_" ++ toString (n + 1))
                  (simpleVal useMs t.start) := by
              simp [simpleStep, h0, hfind]
            rw [h1]
            exact dictInsert_length _ _ _
          | none =>
            have h1 : (simpleStep useMs st t).1 =
                dictInsert st.1 (clean_word t.word)
                  (simpleVal useMs t.start) := by
              simp [simpleStep, h0, hfind]
            rw [h1]
            exact dictInsert_length _ _ _
      have := ih (simpleStep useMs st t)
      omega

/-! Reactive-format lemmas. -/

theorem mkWords_times (font color : String) :
    ∀ (l : List AlignedTiming) (p : ℚ),
      (mkWords font color p l).map (·.time) =
        List.zipWith (fun cu pr => round2 (cu - pr)) (l.map (·.start))
          (p :: l.map (·.start)) := by
  intro l
  induction l with
  | nil => intro p; rfl
  | cons w ws ih =>
    intro p
    show round2 (w.start - p) :: (mkWords font color w.start ws).map (·.time) = _
    rw [ih w.start]
    rfl

theorem foldl_max_le :
    ∀ (l : List Nat) (a : Nat),
      a ≤ l.foldl max a ∧ ∀ x ∈ l, x ≤ l.foldl max a := by
  intro l
  induction l with
  | nil => intro a; exact ⟨Nat.le_refl a, by intro x hx; exact absurd hx (List.not_mem_nil x)⟩
  | cons y rest ih =>
    intro a
    have h1 := ih (max a y)
    constructor
    · exact Nat.le_trans (Nat.le_max_left a y) h1.1
    · intro x hx
      rcases List.mem_cons.mp hx with rfl | hx'
      · exact Nat.le_trans (Nat.le_max_right a x) h1.1
      · exact h1.2 x hx'

theorem mem_sortedLines {ts : List AlignedTiming} {ln : Nat} :
    ln ∈ sortedLines ts ↔ ∃ t ∈ ts, t.line = ln := by
  unfold sortedLines
  rw [List.mem_filter]
  constructor
  · intro ⟨_, hany⟩
    obtain ⟨t, ht, hb⟩ := List.any_eq_true.mp hany
    exact ⟨t, ht, by rw [← beq_iff_eq (a := t.line) (b := ln)]; exact hb⟩
  · intro ⟨t, ht, hline⟩
    constructor
    · rw [List.mem_range]
      have := (foldl_max_le (ts.map (·.line)) 0).2 t.line
        (List.mem_map.mpr ⟨t, ht, rfl⟩)
      omega
    · exact List.any_eq_true.mpr ⟨t, ht, by rw [hline]; exact beq_self_eq_true ln⟩

theorem sortedLines_sorted (ts : List AlignedTiming) :
    (sortedLines ts).Pairwise (· < ·) :=
  (List.pairwise_lt_range _).filter _

theorem lineGroup_ne_nil {ts : List AlignedTiming} {ln : Nat}
    (h : ln ∈ sortedLines ts) : lineGroup ts ln ≠ [] := by
  obtain ⟨t, ht, hline⟩ := mem_sortedLines.mp h
  have : t ∈ lineGroup ts ln := by
    unfold lineGroup
    rw [List.mem_filter]
    exact ⟨ht, by rw [hline]; exact beq_self_eq_true ln⟩
  exact List.ne_nil_of_mem this

example : clean_word "Don't" = "don't" := by decide
example :
    get_lyrics_words ["a b c"] =
      [{ original := "a", clean := "a", line := 0 },
       { original := "b", clean := "b", line := 0 },
       { original := "c", clean := "c", line := 0 }] := by decide
example : corrPairs ["a", "b", "c"] ["a", "c"] = [(0, 0), (2, 1)] := by decide
example : round2 (13/20) = 13/20 := by decide

/-! Concrete fixtures used by claim witnesses and examples. -/

/-- Lyrics words for the spec scenario with a gap: lyrics text `a b c`. -/
def exLyrics : List LyricsWord := get_lyrics_words ["a b c"]

/-- Transcription for the gap scenario: `a` at 0-0.3, `c` at 1-1.3. -/
def exTrans : List TranscribedWord :=
  [mkTranscribed "a" 0 (3/10), mkTranscribed "c" 1 (13/10)]

/-- Timings whose third word is literally `a_2`, colliding with the suffixed
key generated for the second occurrence of `a`. -/
def collideTs : List AlignedTiming :=
  [{ word := "a", start := 1, end_ := 2, estimated := none, line := 0 },
   { word := "a", start := 2, end_ := 3, estimated := none, line := 0 },
   { word := "a_2", start := 3, end_ := 4, estimated := none, line := 0 }]

/-- Timings for the repeated-word suffixing scenario of the spec (`go go go`). -/
def goTs : List AlignedTiming :=
  [{ word := "go", start := 1, end_ := 2, estimated := none, line := 0 },
   { word := "go", start := 2, end_ := 3, estimated := none, line := 0 },
   { word := "go", start := 3, end_ := 4, estimated := none, line := 0 }]

/-- One line with absolute starts 10, 10.5, 11.2 (the spec's reactive delta
scenario). -/
def reacTs : List AlignedTiming :=
  [{ word := "aa", start := 10, end_ := 101/10, estimated := none, line := 0 },
   { word := "bb", start := 21/2, end_ := 107/10, estimated := none, line := 0 },
   { word := "cc", start := 56/5, end_ := 113/10, estimated := none, line := 0 }]

/-- Two lines, used with a one-line subtitle sequence. -/
def reacTs2 : List AlignedTiming :=
  [{ word := "aa", start := 1, end_ := 2, estimated := none, line := 0 },
   { word := "bb", start := 3, end_ := 4, estimated := none, line := 1 }]

/-- Entry whose start is 1.239 s and end 1.2395 s. -/
def msIn : AlignedTiming :=
  { word := "w", start := 1239/1000, end_ := 12395/10000, estimated := none,
    line := 0 }

/-- An estimated entry with a line tag, fed to the millisecond flat format. -/
def c4In : AlignedTiming :=
  { word := "x", start := 1, end_ := 2, estimated := some true, line := 5 }

theorem mbAux_nil_left (b : List String) :
    ∀ fuel blo bhi, mbAux [] b fuel 0 0 blo bhi = [] := by
  intro fuel blo bhi
  cases fuel with
  | zero => rfl
  | succ n => simp [mbAux, findLongestMatch, candidates]

/-- C1: the spec requires the empty-lyrics run to be guarded against
division by zero in the match-rate diagnostic and to finish with an empty
map and empty timings; the code instead evaluates `100*matched//0` at line
146 and raises `ZeroDivisionError`, although the correspondence map and the
timing sequence it had built are indeed empty. -/
theorem C1_empty_lyrics_raises_division_by_zero :
    ∀ tw : List TranscribedWord,
      align_lyrics [] tw =
        Except.error "ZeroDivisionError: integer division or modulo by zero" ∧
      buildTimings [] tw = [] ∧
      corrPairs ([] : List String) (tw.map (·.clean)) = [] := by
  intro tw
  refine ⟨rfl, rfl, ?_⟩
  unfold corrPairs get_matching_blocks
  simp only [List.length_nil]
  rw [mbAux_nil_left]
  rfl

/-- C2 counterexample: with words `a`, `a`, `a_2` the suffixed key generated
for the second `a` is literally `a_2`, so the third word overwrites it; the
map ends with 2 keys for 3 words although no word normalizes to the empty
string — the claim that key count can shrink only through empty-normalize
drops is false. -/
theorem C2_simple_key_collision_counterexample :
    format_simple false collideTs = [("a", 1), ("a_2", 3)] ∧
    (format_simple false collideTs).length = 2 ∧
    collideTs.length = 3 ∧
    collideTs.map (fun t => clean_word t.word) = ["a", "a", "a_2"] ∧
    (collideTs.filter fun t => !(clean_word t.word == "")).length = 3 := by
  decide

/-- C2 (amended): in the simple format the first occurrence of a normalized
word keeps the bare key and the k-th occurrence is inserted under the key
suffixed with the occurrence number; words that normalize to the empty
string are dropped; the keys of the resulting map are pairwise distinct and
its size is at most the number of nonempty-normalizing words — but it can
fall short of that number not only through empty-normalize drops: a
generated suffixed key can coincide with another word's normalized form, in
which case the later insertion overwrites the earlier entry. -/
theorem C2_simple_key_generation :
    (∀ (useMs : Bool) (ts : List AlignedTiming),
      ((format_simple useMs ts).map Prod.fst).Nodup) ∧
    (∀ (useMs : Bool) (ts : List AlignedTiming),
      (format_simple useMs ts).length ≤
        (ts.filter fun t => !(clean_word t.word == "")).length) ∧
    (∀ (useMs : Bool) (l1 l2 : List AlignedTiming) (t : AlignedTiming),
      clean_word t.word = "" →
      format_simple useMs (l1 ++ t :: l2) = format_simple useMs (l1 ++ l2)) ∧
    (∀ (useMs : Bool) (ts : List AlignedTiming) (i : Nat), i < ts.length →
      clean_word (ts.getD i dummyTiming).word ≠ "" →
      format_simple useMs (ts.take (i + 1)) =
        dictInsert (simpleAux useMs (ts.take i) ([], [])).1
          (if occCount (ts.take i) (clean_word (ts.getD i dummyTiming).word) = 0
           then clean_word (ts.getD i dummyTiming).word
           else clean_word (ts.getD i dummyTiming).word ++ "_" ++
             toString (occCount (ts.take i)
               (clean_word (ts.getD i dummyTiming).word) + 1))
          (simpleVal useMs (ts.getD i dummyTiming).start)) := by
  refine ⟨?_, ?_, ?_, ?_⟩
  · intro useMs ts
    exact simpleAux_nodup useMs ts ([], []) (by simp)
  · intro useMs ts
    have := simpleAux_length useMs ts ([], [])
    simpa using this
  · intro useMs l1 l2 t h
    unfold format_simple
    rw [simpleAux_append useMs l1 (t :: l2), simpleAux_append useMs l1 l2]
    show (simpleAux useMs l2
      (simpleStep useMs (simpleAux useMs l1 ([], [])) t)).1 = _
    rw [show simpleStep useMs (simpleAux useMs l1 ([], [])) t =
      simpleAux useMs l1 ([], []) from by simp [simpleStep, h]]
  · intro useMs ts i hi hne
    have hgd : ts.getD i dummyTiming = ts[i] := by
      rw [List.getD_eq_getElem?_getD, List.getElem?_eq_getElem hi]
      rfl
    have htake : ts.take (i + 1) = ts.take i ++ [ts.getD i dummyTiming] := by
      rw [List.take_succ, List.getElem?_eq_getElem hi, hgd]
      rfl
    unfold format_simple
    rw [htake, simpleAux_append]
    generalize hgen : ts.getD i dummyTiming = x at hne ⊢
    have hcnt2 : countFind (simpleAux useMs (ts.take i) ([], [])).2
        (clean_word x.word) =
        if occCount (ts.take i) (clean_word x.word) = 0 then none
        else some (occCount (ts.take i) (clean_word x.word)) :=
      simpleAux_counts useMs (ts.take i) ([], []) (clean_word x.word) hne
    show (simpleStep useMs (simpleAux useMs (ts.take i) ([], [])) x).1 = _
    by_cases hocc : occCount (ts.take i) (clean_word x.word) = 0
    · rw [if_pos hocc] at hcnt2 ⊢
      simp [simpleStep, hne, hcnt2]
    · rw [if_neg hocc] at hcnt2 ⊢
      simp [simpleStep, hne, hcnt2]

/-- C2 witness: for lyrics `go go go` the third occurrence is inserted under
the key `go_3`, and the overall simple map is `go, go_2, go_3` in order. -/
theorem C2_simple_key_generation_witness :
    format_simple false goTs = [("go", 1), ("go_2", 2), ("go_3", 3)] ∧
    format_simple false (goTs.take 3) =
      dictInsert (simpleAux false (goTs.take 2) ([], [])).1
        (if occCount (goTs.take 2) (clean_word (goTs.getD 2 dummyTiming).word) = 0
         then clean_word (goTs.getD 2 dummyTiming).word
         else clean_word (goTs.getD 2 dummyTiming).word ++ "_" ++
           toString (occCount (goTs.take 2)
             (clean_word (goTs.getD 2 dummyTiming).word) + 1))
        (simpleVal false (goTs.getD 2 dummyTiming).start) :=
  ⟨by decide,
    C2_simple_key_generation.2.2.2 false goTs 2 (by decide) (by decide)⟩

/-- C3: with the milliseconds flag, every output time in the flat format and
every simple-format value is `int(seconds*1000)`, truncation toward zero;
for a nonnegative value this is the floor, so 1.239 s maps to exactly 1239 ms
and 1.2395 s also maps to 1239 ms (no rounding up at the half). -/
theorem C3_ms_truncation :
    (∀ ts : List AlignedTiming,
      (format_flat true ts).map (·.start) =
        ts.map fun t => ((pyInt (t.start * 1000) : ℤ) : ℚ)) ∧
    (∀ ts : List AlignedTiming,
      (format_flat true ts).map (·.end_) =
        ts.map fun t => ((pyInt (t.end_ * 1000) : ℤ) : ℚ)) ∧
    (∀ q : ℚ, simpleVal true q = ((pyInt (q * 1000) : ℤ) : ℚ)) ∧
    (∀ q : ℚ, 0 ≤ q → (pyInt q : ℚ) ≤ q ∧ q < (pyInt q : ℚ) + 1) ∧
    format_flat true [msIn] =
      [{ word := "w", start := 1239, end_ := 1239, estimated := none,
         line := none }] := by
  refine ⟨?_, ?_, ?_, ?_, by decide⟩
  · intro ts
    show (ts.map _).map _ = _
    rw [List.map_map]
    rfl
  · intro ts
    show (ts.map _).map _ = _
    rw [List.map_map]
    rfl
  · intro q
    rfl
  · intro q hq
    exact pyInt_trunc hq

/-- C3 witness: truncation bounds instantiated at 1.5. -/
theorem C3_ms_truncation_witness :
    (0:ℚ) ≤ 3/2 ∧ ((pyInt (3/2) : ℤ) : ℚ) ≤ 3/2 ∧
      (3/2 : ℚ) < ((pyInt (3/2) : ℤ) : ℚ) + 1 :=
  ⟨by decide, (C3_ms_truncation.2.2.2.1 (3/2) (by decide)).1,
    (C3_ms_truncation.2.2.2.1 (3/2) (by decide)).2⟩

/-- C4 counterexample: an entry carrying `estimated = true` and `line = 5`
loses both fields under the milliseconds conversion — the flat-with-ms
branch rebuilds each entry with only `word`, `start`, `end`, so the claim
that `estimated` and `line` pass through in both modes is false. -/
theorem C4_ms_passthrough_counterexample :
    c4In.estimated = some true ∧ c4In.line = 5 ∧
    (format_flat true [c4In]).map (·.estimated) = [none] ∧
    (format_flat true [c4In]).map (·.line) = [none] := by
  decide

/-- C4 (amended): in seconds mode the flat format returns the timing entries
with every field (`estimated`, `line` included) unchanged; in milliseconds
mode each entry is rebuilt with only `word`, `start`, `end` — the
`estimated` and `line` fields are dropped — and the conversion changes only
the two time values, by truncation. -/
theorem C4_flat_field_passthrough :
    (∀ ts : List AlignedTiming,
      format_flat false ts = ts.map fun t =>
        { word := t.word, start := t.start, end_ := t.end_,
          estimated := t.estimated, line := some t.line }) ∧
    (∀ ts : List AlignedTiming, ∀ e ∈ format_flat true ts,
      e.estimated = none ∧ e.line = none) ∧
    (∀ ts : List AlignedTiming,
      (format_flat true ts).map (·.word) = ts.map (·.word)) ∧
    (∀ ts : List AlignedTiming,
      (format_flat true ts).map (·.start) =
        ts.map fun t => ((pyInt (t.start * 1000) : ℤ) : ℚ)) ∧
    (∀ ts : List AlignedTiming,
      (format_flat true ts).map (·.end_) =
        ts.map fun t => ((pyInt (t.end_ * 1000) : ℤ) : ℚ)) := by
  refine ⟨?_, ?_, ?_, ?_, ?_⟩
  · intro ts
    rfl
  · intro ts e he
    have he2 : e ∈ ts.map (fun t =>
        ({ word := t.word, start := ((pyInt (t.start * 1000) : ℤ) : ℚ),
           end_ := ((pyInt (t.end_ * 1000) : ℤ) : ℚ), estimated := none,
           line := none } : OutEntry)) := he
    obtain ⟨t, _, rfl⟩ := List.mem_map.mp he2
    exact ⟨rfl, rfl⟩
  · intro ts
    show (ts.map _).map _ = _
    rw [List.map_map]
    rfl
  · intro ts
    show (ts.map _).map _ = _
    rw [List.map_map]
    rfl
  · intro ts
    show (ts.map _).map _ = _
    rw [List.map_map]
    rfl

/-- The entry the milliseconds flat branch produces from `c4In`. -/
def c4Out : OutEntry :=
  { word := "x", start := 1000, end_ := 2000, estimated := none, line := none }

/-- C4 witness: the milliseconds entry produced from the estimated input
carries no `estimated` and no `line` field. -/
theorem C4_flat_field_passthrough_witness :
    c4Out ∈ format_flat true [c4In] ∧
    (c4Out.estimated = none ∧ c4Out.line = none) :=
  ⟨by decide, C4_flat_field_passthrough.2.1 [c4In] c4Out (by decide)⟩

/-- C5: for a well-formed transcription (nonnegative starts, start before
end, chronological non-overlap), every emitted entry satisfies
`start <= end`; every estimated entry has duration exactly 0.2 s after the
2-decimal rounding; and for an unmatched index with a following anchor the
midpoint estimate `(prev+next)/2` is never earlier than the previous matched
word's end time. -/
theorem C5_timing_interval_bounds :
    ∀ (lw : List LyricsWord) (tw : List TranscribedWord), TransWF tw →
      (∀ e ∈ buildTimings lw tw, e.start ≤ e.end_) ∧
      (∀ e ∈ buildTimings lw tw, e.estimated = some true →
        e.end_ - e.start = 1/5) ∧
      (∀ i, lyricsToTrans lw tw i = none →
        ∀ n, nextTime (lyricsToTrans lw tw) tw i lw.length = some n →
          prevTime (lyricsToTrans lw tw) tw i ≤
            (prevTime (lyricsToTrans lw tw) tw i + n) / 2 ∧
          estTime (lyricsToTrans lw tw) tw i lw.length =
            (prevTime (lyricsToTrans lw tw) tw i + n) / 2) := by
  intro lw tw hwf
  refine ⟨?_, ?_, ?_⟩
  · intro e he
    obtain ⟨i, _, rfl⟩ := mem_buildTimings he
    exact timingFor_start_le_end hwf i
  · intro e he hest
    obtain ⟨i, _, rfl⟩ := mem_buildTimings he
    rw [timingFor_estimated] at hest
    cases hm : lyricsToTrans lw tw i with
    | some j => simp [hm] at hest
    | none => exact timingFor_est_duration hm
  · intro i _ n hnext
    constructor
    · have := prev_le_next hwf hnext
      linarith
    · unfold estTime
      rw [hnext]

/-- C5 witness: the gap scenario has a well-formed transcription and its
unmatched index 1 has next anchor at 1 s, with the midpoint estimate no
earlier than the previous end. -/
theorem C5_timing_interval_bounds_witness :
    TransWF exTrans ∧
    lyricsToTrans exLyrics exTrans 1 = none ∧
    nextTime (lyricsToTrans exLyrics exTrans) exTrans 1 exLyrics.length =
      some 1 ∧
    prevTime (lyricsToTrans exLyrics exTrans) exTrans 1 ≤
      (prevTime (lyricsToTrans exLyrics exTrans) exTrans 1 + 1) / 2 :=
  ⟨by decide, by decide, by decide,
    ((C5_timing_interval_bounds exLyrics exTrans (by decide)).2.2 1 (by decide)
      1 (by decide)).1⟩

/-- C6: the correspondence pairs produced by the modelled matching-block
engine are strictly increasing in both coordinates, for every pair of input
sequences: mapped pairs with a smaller lyrics index always have a smaller
transcription index, hence the mapping is injective. -/
theorem C6_correspondence_strictly_increasing :
    ∀ (a b : List String) (p q : Nat × Nat),
      p ∈ corrPairs a b → q ∈ corrPairs a b → p.1 < q.1 → p.2 < q.2 :=
  fun _ _ _ _ hp hq h => corrPairs_mono hp hq h

/-- C6 witness: instantiated on two equal two-word sequences. -/
theorem C6_correspondence_strictly_increasing_witness :
    ((0, 0) : Nat × Nat) ∈ corrPairs ["x", "y"] ["x", "y"] ∧
    ((1, 1) : Nat × Nat) ∈ corrPairs ["x", "y"] ["x", "y"] ∧
    ((0, 0) : Nat × Nat).2 < ((1, 1) : Nat × Nat).2 :=
  ⟨by decide, by decide,
    C6_correspondence_strictly_increasing ["x", "y"] ["x", "y"] (0, 0) (1, 1)
      (by decide) (by decide) (by decide)⟩

theorem buildTimings_getElem {lw : List LyricsWord} {tw : List TranscribedWord}
    {i : Nat} (hi : i < lw.length) (h : i < (buildTimings lw tw).length) :
    (buildTimings lw tw)[i] = timingFor lw tw (lyricsToTrans lw tw) i := by
  have hb := @buildTimings_getElem? lw tw i hi
  rw [List.getElem?_eq_getElem h] at hb
  exact Option.some.inj hb

/-- C7: the interpolator's backward scan yields the end time of the nearest
preceding mapped index (0 when none), the forward scan the start time of the
nearest following mapped index (absent when none); with a following anchor
the estimate is the midpoint, otherwise previous end plus 0.3; the emitted
entry is `round(est,2)`, `round(est+0.2,2)` with `estimated = true`; and on
lyrics `a b c` against `a` at 0-0.3 and `c` at 1-1.3 the entry for `b` is
estimated with start 0.65 and end 0.85. -/
theorem C7_interpolator_nearest_and_gap_scenario :
    (∀ (m : Nat → Option Nat) (tw : List TranscribedWord) (i : Nat),
      (∀ j, j < i → m j = none) → prevTime m tw i = 0) ∧
    (∀ (m : Nat → Option Nat) (tw : List TranscribedWord) (i : Nat),
      prevTime m tw i = 0 ∨
        ∃ j tj, j < i ∧ m j = some tj ∧
          prevTime m tw i = (transAt tw tj).end_ ∧
          ∀ y, j < y → y < i → m y = none) ∧
    (∀ (m : Nat → Option Nat) (tw : List TranscribedWord) (i len : Nat),
      nextTime m tw i len = none ∨
        ∃ j tj, i < j ∧ j < len ∧ m j = some tj ∧
          nextTime m tw i len = some (transAt tw tj).start ∧
          ∀ y, i < y → y < j → m y = none) ∧
    (∀ (m : Nat → Option Nat) (tw : List TranscribedWord) (i len : Nat)
      (n : ℚ), nextTime m tw i len = some n →
        estTime m tw i len = (prevTime m tw i + n) / 2) ∧
    (∀ (m : Nat → Option Nat) (tw : List TranscribedWord) (i len : Nat),
      nextTime m tw i len = none →
        estTime m tw i len = prevTime m tw i + 3/10) ∧
    (∀ (lw : List LyricsWord) (tw : List TranscribedWord) (i : Nat),
      lyricsToTrans lw tw i = none →
      timingFor lw tw (lyricsToTrans lw tw) i =
        { word := (lyricsAt lw i).original,
          start := round2 (estTime (lyricsToTrans lw tw) tw i lw.length),
          end_ := round2 (estTime (lyricsToTrans lw tw) tw i lw.length + 1/5),
          estimated := some true,
          line := (lyricsAt lw i).line }) ∧
    buildTimings exLyrics exTrans =
      [{ word := "a", start := 0, end_ := 3/10, estimated := none, line := 0 },
       { word := "b", start := 13/20, end_ := 17/20, estimated := some true,
         line := 0 },
       { word := "c", start := 1, end_ := 13/10, estimated := none,
         line := 0 }] := by
  refine ⟨?_, ?_, ?_, ?_, ?_, ?_, by decide⟩
  · intro m tw i h
    exact prevTime_eq_zero h
  · intro m tw i
    exact prevTime_cases m tw i
  · intro m tw i len
    exact nextTime_cases m tw i len
  · intro m tw i len n h
    unfold estTime
    rw [h]
  · intro m tw i len h
    unfold estTime
    rw [h]
  · intro lw tw i h
    unfold timingFor
    rw [h]

/-- C7 witness: the backward scan of an everywhere-unmapped correspondence
returns 0. -/
theorem C7_interpolator_witness :
    prevTime (fun _ => none) ([] : List TranscribedWord) 3 = 0 :=
  C7_interpolator_nearest_and_gap_scenario.1 (fun _ => none) [] 3
    (fun _ _ => rfl)

/-- C8: the timing sequence always has exactly the length of the lyrics-word
sequence, one entry per lyrics word in lyrics order, carrying the original
surface form and line tag of its word. -/
theorem C8_one_timing_per_lyrics_word :
    ∀ (lw : List LyricsWord) (tw : List TranscribedWord),
      (buildTimings lw tw).length = lw.length ∧
      (buildTimings lw tw).map (·.word) = lw.map (·.original) ∧
      (buildTimings lw tw).map (·.line) = lw.map (·.line) := by
  intro lw tw
  refine ⟨buildTimings_length lw tw, ?_, ?_⟩
  · apply List.ext_getElem
    · rw [List.length_map, List.length_map, buildTimings_length]
    · intro i h1 h2
      have hi : i < lw.length := by
        rw [List.length_map, buildTimings_length] at h1
        exact h1
      have hb : i < (buildTimings lw tw).length := by
        rw [buildTimings_length]
        exact hi
      rw [List.getElem_map, List.getElem_map, buildTimings_getElem hi hb,
        timingFor_word, lyricsAt_eq_get hi]
      rw [List.get_eq_getElem]
  · apply List.ext_getElem
    · rw [List.length_map, List.length_map, buildTimings_length]
    · intro i h1 h2
      have hi : i < lw.length := by
        rw [List.length_map, buildTimings_length] at h1
        exact h1
      have hb : i < (buildTimings lw tw).length := by
        rw [buildTimings_length]
        exact hi
      rw [List.getElem_map, List.getElem_map, buildTimings_getElem hi hb,
        timingFor_line, lyricsAt_eq_get hi]
      rw [List.get_eq_getElem]

/-- C10: a matched entry carries no `estimated` field (modelled as `none`),
an interpolated entry carries `estimated = true`, and no entry ever carries
`estimated = false`. -/
theorem C10_estimated_only_on_interpolated :
    ∀ (lw : List LyricsWord) (tw : List TranscribedWord),
      (∀ e ∈ buildTimings lw tw,
        e.estimated = none ∨ e.estimated = some true) ∧
      (∀ e ∈ buildTimings lw tw, e.estimated ≠ some false) ∧
      (∀ i, i < lw.length →
        ((buildTimings lw tw)[i]?).map (·.estimated) =
          some (if (lyricsToTrans lw tw i).isSome then none else some true)) := by
  intro lw tw
  refine ⟨?_, ?_, ?_⟩
  · intro e he
    obtain ⟨i, _, rfl⟩ := mem_buildTimings he
    rw [timingFor_estimated]
    cases lyricsToTrans lw tw i with
    | some j => exact Or.inl rfl
    | none => exact Or.inr rfl
  · intro e he
    obtain ⟨i, _, rfl⟩ := mem_buildTimings he
    rw [timingFor_estimated]
    cases lyricsToTrans lw tw i with
    | some j => simp
    | none => simp
  · intro i hi
    rw [buildTimings_getElem? hi, Option.map_some', timingFor_estimated]
    cases hm : lyricsToTrans lw tw i <;> simp [hm]

/-- C10 witness: in the gap scenario the interpolated entry at index 1 is
flagged estimated while the matched neighbours are not. -/
theorem C10_estimated_only_on_interpolated_witness :
    ((buildTimings exLyrics exTrans)[1]?).map (·.estimated) =
      some (if (lyricsToTrans exLyrics exTrans 1).isSome then none
        else some true) :=
  (C10_estimated_only_on_interpolated exLyrics exTrans).2.2 1 (by decide)

/-- C9: reactive lines are grouped by ascending distinct line index; a line
record's `seconds` is its first word's start; the recorded per-word times
are 0 for the first word and the 2-decimal-rounded difference of consecutive
starts afterwards; a supplied subtitle sequence shorter than the line index
leaves the `subtitle` field absent; concretely, starts 10, 10.5, 11.2 give
deltas 0, 0.5, 0.7 with `seconds = 10`, and with a one-entry subtitle list
the second line omits the subtitle. -/
theorem C9_reactive_lines :
    (∀ ts : List AlignedTiming, (sortedLines ts).Pairwise (· < ·)) ∧
    (∀ (ts : List AlignedTiming) (ln : Nat),
      ln ∈ sortedLines ts ↔ ∃ t ∈ ts, t.line = ln) ∧
    (∀ (font color : String) (subs : Option (List String)) (ln : Nat)
      (w : AlignedTiming) (ws : List AlignedTiming) (L : ReactiveLine),
      buildLine font color subs ln (w :: ws) = some L →
      L.seconds = w.start ∧
      L.words.map (·.time) =
        List.zipWith (fun cu pr => round2 (cu - pr)) ((w :: ws).map (·.start))
          (w.start :: (w :: ws).map (·.start)) ∧
      (L.words.map (·.time)).head? = some 0) ∧
    (∀ (font color : String) (subs : List String) (ln : Nat)
      (g : List AlignedTiming) (L : ReactiveLine),
      buildLine font color (some subs) ln g = some L → subs.length ≤ ln →
      L.subtitle = none) ∧
    (∀ (ts : List AlignedTiming) (font color : String)
      (subs : Option (List String)) (ln : Nat), ln ∈ sortedLines ts →
      ∃ L, buildLine font color subs ln (lineGroup ts ln) = some L ∧
        L ∈ format_reactive ts font color subs) ∧
    ((format_reactive reacTs "f" "c" none).map (·.seconds) = [10] ∧
     (format_reactive reacTs "f" "c" none).map
       (fun L => L.words.map (·.time)) = [[0, 1/2, 7/10]] ∧
     (format_reactive reacTs2 "f" "c" (some ["s0"])).map (·.subtitle) =
       [some "S0", none]) := by
  refine ⟨?_, ?_, ?_, ?_, ?_, by decide, by decide, by decide⟩
  · intro ts
    exact sortedLines_sorted ts
  · intro ts ln
    exact mem_sortedLines
  · intro font color subs ln w ws L hb
    have hL := Option.some.inj hb
    subst hL
    refine ⟨rfl, mkWords_times font color (w :: ws) w.start, ?_⟩
    rw [mkWords_times, List.map_cons, List.zipWith_cons_cons,
      List.head?_cons, sub_self, round2_zero]
  · intro font color subs ln g L hb hlen
    cases g with
    | nil => exact absurd hb (by simp [buildLine])
    | cons w ws =>
      have hL := Option.some.inj hb
      subst hL
      show (if ln < subs.length then _ else none) = none
      rw [if_neg (by omega)]
  · intro ts font color subs ln hln
    have hne := lineGroup_ne_nil hln
    cases hg : lineGroup ts ln with
    | nil => exact absurd hg hne
    | cons w ws =>
      cases hbl : buildLine font color subs ln (w :: ws) with
      | none => exact absurd hbl (by simp [buildLine])
      | some L =>
        refine ⟨L, rfl, ?_⟩
        exact List.mem_filterMap.mpr ⟨ln, hln, by rw [hg]; exact hbl⟩

/-- The line record built for the second line of the two-line fixture. -/
def subtitleLessLine : ReactiveLine :=
  { words := mkWords "f" "c" 3
      [{ word := "bb", start := 3, end_ := 4, estimated := none, line := 1 }],
    isJson := true, locked := true, seconds := 3, subtitle := none }

/-- C9 witness: a line index at the subtitle sequence's length gets no
subtitle field. -/
theorem C9_reactive_lines_witness : subtitleLessLine.subtitle = none :=
  C9_reactive_lines.2.2.2.1 "f" "c" ["s0"] 1 (lineGroup reacTs2 1)
    subtitleLessLine (by decide) (by decide)
